import Mathlib

/-!
Verification development for the `negasus/cache` library: an in-process
byte-value cache with per-entry TTL, a global size budget, lazy expiry
marking, periodic scanning/clearing, and size-triggered compaction.

The embedding below translates the Go source into Lean:

* bytes are modelled as `List Nat` (only lengths matter to the claims);
* `time.Time` values are modelled as `Nat` nanosecond timestamps; the Go
  zero time (`IsZero`) of the `ttl` field is modelled as `Option.none`;
* the Go map `storage : map[string]*item` is an association list with
  unique keys (insertion conses the new pair and erases the old one);
* the Go set `expired : map[string]struct{}` is a list of keys used as a
  set;
* `int64` counters are modelled as `Int` (the claims never approach
  overflow, so wrap-around is not modelled);
* each public operation takes the current time(s) it would obtain from
  `time.Now()` as an explicit argument and returns the updated cache
  state; goroutine spawns (`go c.compact()`) are modelled as separate
  steps of the transition system, per the claims' sequential readings;
* the `clearExpireTimout` / `checkExpireTimout` fields only control
  sleep intervals of the background loops and play no role in any claim,
  so they are omitted from the state.
-/

deriving instance DecidableEq for Except

namespace NegasusCache

abbrev Bytes := List Nat
abbrev Key := String

/-- Go `item`: cached data, TTL deadline (`none` models the zero time,
i.e. "never expires"), and last-used timestamp. -/
structure Item where
  data : Bytes
  ttl : Option Nat
  lu : Nat
deriving DecidableEq

/-- Go `Cache` (the fields relevant to the claims): the storage map, the
expired-pending set, the size limit and the running size counter. -/
structure Cache where
  storage : List (Key × Item)
  expired : List Key
  sizeLimit : Int
  size : Int
deriving DecidableEq

/-- Go `ErrNotFound = errors.New("not found")`; errors are modelled as
strings. -/
def ErrNotFound : String := "not found"

/-- Lookup in the storage map (`c.storage[key]`). -/
def mapLookup (k : Key) : List (Key × Item) → Option Item
  | [] => none
  | p :: rest => if p.1 = k then some p.2 else mapLookup k rest

/-- Deletion from the storage map (`delete(c.storage, key)`). -/
def mapErase (k : Key) : List (Key × Item) → List (Key × Item)
  | [] => []
  | p :: rest => if p.1 = k then mapErase k rest else p :: mapErase k rest

/-- Assignment into the storage map (`c.storage[key] = &item{...}`). -/
def mapInsert (k : Key) (v : Item) (m : List (Key × Item)) : List (Key × Item) :=
  (k, v) :: mapErase k m

/-- Assignment into the expired set (`c.expired[key] = struct{}{}`). -/
def setInsert (k : Key) (s : List Key) : List Key :=
  if k ∈ s then s else k :: s

/-- Deletion from the expired set (`delete(c.expired, key)`). -/
def setErase (k : Key) : List Key → List Key
  | [] => []
  | x :: rest => if x = k then setErase k rest else x :: setErase k rest

/-- The state built by `New` before the background goroutines start:
empty storage, empty expired set, zero size. -/
def initState (limit : Int) : Cache :=
  { storage := [], expired := [], sizeLimit := limit, size := 0 }

/-- Go `Cache.Get`: look up the key; absent fails with `ErrNotFound`; a
set-and-past TTL (`!i.ttl.IsZero() && i.ttl.Before(time.Now())`) marks
the key in the expired set and fails with `ErrNotFound`; otherwise the
last-used stamp is refreshed and the data returned. -/
def Get (c : Cache) (key : Key) (now : Nat) : Except String Bytes × Cache :=
  match mapLookup key c.storage with
  | none => (Except.error ErrNotFound, c)
  | some i =>
    match i.ttl with
    | some t =>
      if t < now then
        (Except.error ErrNotFound, { c with expired := setInsert key c.expired })
      else
        (Except.ok i.data, { c with storage := mapInsert key { i with lu := now } c.storage })
    | none =>
      (Except.ok i.data, { c with storage := mapInsert key { i with lu := now } c.storage })

/-- Go `Cache.Put`: rejects `len(data) >= sizeLimit`; otherwise stores a
fresh item with zero TTL and `lu = now`, removes any pending-expiry mark
for the key, and adds `len(data)` to the size counter.  (Note the source
adds the new length without subtracting an overwritten entry's length.)
The asynchronous `go c.compact()` trigger is a separate transition. -/
def Put (c : Cache) (key : Key) (data : Bytes) (now : Nat) : Cache :=
  if c.sizeLimit ≤ (data.length : Int) then c
  else
    { c with
      storage := mapInsert key { data := data, ttl := none, lu := now } c.storage
      expired := setErase key c.expired
      size := c.size + (data.length : Int) }

/-- Go `Cache.PutWithTTL`: as `Put` but the stored item carries
`ttl = time.Now().Add(ttl)`, modelled as `some (now + ttl)`. -/
def PutWithTTL (c : Cache) (key : Key) (data : Bytes) (now : Nat) (ttl : Nat) : Cache :=
  if c.sizeLimit ≤ (data.length : Int) then c
  else
    { c with
      storage := mapInsert key { data := data, ttl := some (now + ttl), lu := now } c.storage
      expired := setErase key c.expired
      size := c.size + (data.length : Int) }

/-- Go `Cache.Has`: present and (`ttl.IsZero() || ttl.After(now)`);
performs no writes, so the state is returned unchanged. -/
def Has (c : Cache) (key : Key) (now : Nat) : Bool × Cache :=
  match mapLookup key c.storage with
  | none => (false, c)
  | some i =>
    match i.ttl with
    | none => (true, c)
    | some t => (decide (now < t), c)

/-- Go `Cache.Delete`: remove the entry if present and subtract its data
length from the size counter; a missing key is a no-op.  The expired set
is not touched. -/
def Delete (c : Cache) (key : Key) : Cache :=
  match mapLookup key c.storage with
  | none => c
  | some i =>
    { c with
      storage := mapErase key c.storage
      size := c.size - (i.data.length : Int) }

/-- Go `Cache.GetOrNew`: `Get`, and on any error invoke the callback; a
callback error is returned as-is; callback data is stored via `Put` and
returned. -/
def GetOrNew (c : Cache) (key : Key) (now : Nat) (cb : Key → Except String Bytes) :
    Except String Bytes × Cache :=
  match Get c key now with
  | (Except.ok data, c1) => (Except.ok data, c1)
  | (Except.error _, c1) =>
    match cb key with
    | Except.error e => (Except.error e, c1)
    | Except.ok data => (Except.ok data, Put c1 key data now)

/-- Go `Cache.GetOrNewWithTTL`: as `GetOrNew` but storing through
`PutWithTTL`. -/
def GetOrNewWithTTL (c : Cache) (key : Key) (now : Nat) (ttl : Nat)
    (cb : Key → Except String Bytes) : Except String Bytes × Cache :=
  match Get c key now with
  | (Except.ok data, c1) => (Except.ok data, c1)
  | (Except.error _, c1) =>
    match cb key with
    | Except.error e => (Except.error e, c1)
    | Except.ok data => (Except.ok data, PutWithTTL c1 key data now ttl)

/-- One pass of the body of Go `Cache.scanExpired`: every stored entry
whose TTL is set and before `now` is marked in the expired set. -/
def scanPass (c : Cache) (now : Nat) : Cache :=
  { c with
    expired := c.storage.foldl
      (fun acc p =>
        match p.2.ttl with
        | some t => if t < now then setInsert p.1 acc else acc
        | none => acc)
      c.expired }

/-- One step of the loop body of Go `Cache.clear` for a single key drawn
from the expired set: the key is removed from the expired set, and if it
is still stored, the entry is removed and the size counter decremented. -/
def clearStep (acc : Cache) (k : Key) : Cache :=
  match mapLookup k acc.storage with
  | none => { acc with expired := setErase k acc.expired }
  | some i =>
    { acc with
      expired := setErase k acc.expired
      storage := mapErase k acc.storage
      size := acc.size - (i.data.length : Int) }

/-- One pass of the body of Go `Cache.clear` (the Reaper): iterate over a
snapshot of the expired set, draining it and removing stored entries. -/
def clearPass (c : Cache) : Cache :=
  c.expired.foldl clearStep c

/-- Sum of `len(data)` over the storage map: the quantity the `size`
counter is supposed to track. -/
def sumLens (m : List (Key × Item)) : Int :=
  m.foldl (fun a p => a + (p.2.data.length : Int)) 0

/-- Removal of a stamp key from the compaction snapshot map. -/
def smapErase (n : Nat) : List (Nat × Key) → List (Nat × Key)
  | [] => []
  | p :: rest => if p.1 = n then smapErase n rest else p :: smapErase n rest

/-- Assignment `s[n] = key` into the compaction snapshot map
`s : map[int]string` of Go `Cache.compact`; a later assignment with the
same nanosecond stamp overwrites the earlier one. -/
def smapInsert (n : Nat) (k : Key) (m : List (Nat × Key)) : List (Nat × Key) :=
  (n, k) :: smapErase n m

/-- Lookup `s[skey]` in the snapshot map; a missing key yields the Go
zero value `""`. -/
def smapLookup (n : Nat) : List (Nat × Key) → Key
  | [] => ""
  | p :: rest => if p.1 = n then p.2 else smapLookup n rest

/-- The snapshot phase of Go `Cache.compact`: one walk over the storage
map building `s[lu] = key` and appending each `lu` to `t`. -/
def compactSnap (storage : List (Key × Item)) : List (Nat × Key) × List Nat :=
  storage.foldl (fun acc p => (smapInsert p.2.lu p.1 acc.1, acc.2 ++ [p.2.lu])) ([], [])

/-- The removal loop of Go `Cache.compact`: walk the sorted stamps, look
the key up through the snapshot map, skip keys that vanished, otherwise
remove the entry and decrement the size counter, returning once the
counter drops below the limit.  The third component records the keys in
removal order (the pass's only observable ordering). -/
def compactLoop (smap : List (Nat × Key)) (lim : Int) :
    List Nat → List (Key × Item) → Int → List (Key × Item) × Int × List Key
  | [], st, sz => (st, sz, [])
  | n :: rest, st, sz =>
    match mapLookup (smapLookup n smap) st with
    | none => compactLoop smap lim rest st sz
    | some i =>
      let st1 := mapErase (smapLookup n smap) st
      let sz1 := sz - (i.data.length : Int)
      if sz1 < lim then (st1, sz1, [smapLookup n smap])
      else
        let r := compactLoop smap lim rest st1 sz1
        (r.1, r.2.1, smapLookup n smap :: r.2.2)

/-- Go `Cache.compact`: snapshot, `sort.Ints(t)` (any sorting algorithm
computes the same sorted list of naturals), then the removal loop. -/
def compactRun (c : Cache) : Cache × List Key :=
  let snap := compactSnap c.storage
  let t := List.insertionSort (· ≤ ·) snap.2
  let r := compactLoop snap.1 c.sizeLimit t c.storage c.size
  ({ c with storage := r.1, size := r.2.1 }, r.2.2)

/-- Spec-side definition for the compaction claim (the spec's words):
live entries sorted ascending by `lastUsed`. -/
def sortByLu (storage : List (Key × Item)) : List (Key × Item) :=
  List.insertionSort (fun a b => a.2.lu ≤ b.2.lu) storage

/-- Spec-side definition for the compaction claim (the spec's words):
remove entries in the given (ascending last-used) order, updating the
size counter, stopping as soon as it drops below the limit. -/
def evictOrderSpec : List (Key × Item) → Int → Int → List (Key × Item)
  | [], _, _ => []
  | p :: rest, sz, lim =>
    if sz - (p.2.data.length : Int) < lim then [p]
    else p :: evictOrderSpec rest (sz - (p.2.data.length : Int)) lim

/-- The entries the spec says a compaction pass run on state `c` should
remove, in order. -/
def compactSpec (c : Cache) : List (Key × Item) :=
  evictOrderSpec (sortByLu c.storage) c.size c.sizeLimit

/-- A public operation or background pass of the cache, with the times
its `time.Now()` calls would observe. -/
inductive Op
  | get (k : Key) (now : Nat)
  | put (k : Key) (d : Bytes) (now : Nat)
  | putTTL (k : Key) (d : Bytes) (now : Nat) (ttl : Nat)
  | has (k : Key) (now : Nat)
  | del (k : Key)
  | getOrNew (k : Key) (now : Nat) (cb : Key → Except String Bytes)
  | getOrNewTTL (k : Key) (now : Nat) (ttl : Nat) (cb : Key → Except String Bytes)
  | scan (now : Nat)
  | clear
  | compact

/-- The state transition of one operation (return values discarded). -/
def step (c : Cache) : Op → Cache
  | Op.get k now => (Get c k now).2
  | Op.put k d now => Put c k d now
  | Op.putTTL k d now ttl => PutWithTTL c k d now ttl
  | Op.has k now => (Has c k now).2
  | Op.del k => Delete c k
  | Op.getOrNew k now cb => (GetOrNew c k now cb).2
  | Op.getOrNewTTL k now ttl cb => (GetOrNewWithTTL c k now ttl cb).2
  | Op.scan now => scanPass c now
  | Op.clear => clearPass c
  | Op.compact => (compactRun c).1

/-- Run a sequence of operations from a state. -/
def runOps (c : Cache) (ops : List Op) : Cache :=
  ops.foldl step c

/-- Operations other than `Delete` and compaction passes (the two that
can strand a pending-expiry mark for a key no longer stored). -/
def opKeepsPending : Op → Bool
  | Op.del _ => false
  | Op.compact => false
  | _ => true

/-- The claimed ExpiryTracker/Store relationship: every key in the
expired-pending set is present in the storage map. -/
def PendingInStore (c : Cache) : Prop :=
  ∀ k, k ∈ c.expired → ∃ i, mapLookup k c.storage = some i

/-- The snapshot map built by the snapshot walk of `Cache.compact`,
starting from `a`. -/
def buildSmap (m : List (Key × Item)) (a : List (Nat × Key)) : List (Nat × Key) :=
  m.foldl (fun acc p => smapInsert p.2.lu p.1 acc) a

/-- Successive removal of the given entries' keys from a storage map, as
the compaction loop performs it. -/
def removeKeys : List (Key × Item) → List (Key × Item) → List (Key × Item)
  | [], st => st
  | p :: rest, st => removeKeys rest (mapErase p.1 st)

/-- A callback that always fails, for the C8 counterexample and
witness. -/
def cbFail : Key → Except String Bytes := fun _ => Except.error "boom"

/-- A state whose key `"k"` is visible only as expired (TTL 5, read at
time 10), for the C8 counterexample. -/
def c8state : Cache :=
  { storage := [("k", { data := [7], ttl := some 5, lu := 0 })]
    expired := []
    sizeLimit := 100
    size := 1 }

/-- A concrete state for the C10 witness: key `"k"` stored, a stale
pending mark `"z"`. -/
def c10state : Cache :=
  { storage := [("k", { data := [1, 2], ttl := none, lu := 0 })]
    expired := ["z"]
    sizeLimit := 10
    size := 2 }

/-- A state with a last-used collision for the C2 counterexample:
`"A"` and `"B"` share `lu = 1`, `"C"` has the strictly newer `lu = 2`;
the size counter is over the limit. -/
def c2state : Cache :=
  { storage := [("A", { data := [0, 0, 0, 0], ttl := none, lu := 1 }),
                ("B", { data := [0, 0, 0, 0], ttl := none, lu := 1 }),
                ("C", { data := [0, 0, 0, 0], ttl := none, lu := 2 })]
    expired := []
    sizeLimit := 5
    size := 12 }

/-- A state with pairwise-distinct last-used stamps for the C2 witness. -/
def c2good : Cache :=
  { storage := [("A", { data := [0, 0, 0, 0, 0], ttl := none, lu := 3 }),
                ("B", { data := [0, 0, 0, 0, 0], ttl := none, lu := 1 }),
                ("C", { data := [0, 0, 0, 0, 0], ttl := none, lu := 2 })]
    expired := []
    sizeLimit := 9
    size := 15 }

theorem mapLookup_erase_ne (k k2 : Key) (m : List (Key × Item)) (h : ¬ k2 = k) :
    mapLookup k2 (mapErase k m) = mapLookup k2 m := by
  induction m with
  | nil => rfl
  | cons a l ih =>
    by_cases ha : a.1 = k
    · have ha2 : ¬ a.1 = k2 := by rw [ha]; exact fun hh => h hh.symm
      rw [mapErase, if_pos ha, mapLookup, if_neg ha2]
      exact ih
    · rw [mapErase, if_neg ha, mapLookup, mapLookup]
      by_cases hb : a.1 = k2
      · rw [if_pos hb, if_pos hb]
      · rw [if_neg hb, if_neg hb]
        exact ih

theorem mapLookup_erase_self (k : Key) (m : List (Key × Item)) :
    mapLookup k (mapErase k m) = none := by
  induction m with
  | nil => rfl
  | cons a l ih =>
    by_cases ha : a.1 = k
    · rw [mapErase, if_pos ha]
      exact ih
    · rw [mapErase, if_neg ha, mapLookup, if_neg ha]
      exact ih

theorem mapLookup_insert_self (k : Key) (v : Item) (m : List (Key × Item)) :
    mapLookup k (mapInsert k v m) = some v := by
  simp [mapInsert, mapLookup]

theorem mapLookup_insert_ne (k k2 : Key) (v : Item) (m : List (Key × Item)) (h : ¬ k2 = k) :
    mapLookup k2 (mapInsert k v m) = mapLookup k2 m := by
  have hk : ¬ k = k2 := fun hh => h hh.symm
  simp only [mapInsert, mapLookup, hk, if_false]
  exact mapLookup_erase_ne k k2 m h

theorem mem_setInsert {x k : Key} {s : List Key} : x ∈ setInsert k s ↔ x = k ∨ x ∈ s := by
  unfold setInsert
  by_cases h : k ∈ s
  · rw [if_pos h]
    constructor
    · exact Or.inr
    · rintro (rfl | hx)
      · exact h
      · exact hx
  · rw [if_neg h]
    exact List.mem_cons

theorem mem_setErase {x k : Key} {s : List Key} : x ∈ setErase k s ↔ x ∈ s ∧ ¬ x = k := by
  induction s with
  | nil => simp [setErase]
  | cons a l ih =>
    by_cases ha : a = k
    · rw [setErase, if_pos ha, ih, List.mem_cons]
      subst ha
      constructor
      · rintro ⟨hx, hnk⟩
        exact ⟨Or.inr hx, hnk⟩
      · rintro ⟨rfl | hx, hnk⟩
        · exact absurd rfl hnk
        · exact ⟨hx, hnk⟩
    · rw [setErase, if_neg ha, List.mem_cons, List.mem_cons, ih]
      constructor
      · rintro (rfl | ⟨hx, hnk⟩)
        · exact ⟨Or.inl rfl, ha⟩
        · exact ⟨Or.inr hx, hnk⟩
      · rintro ⟨rfl | hx, hnk⟩
        · exact Or.inl rfl
        · exact Or.inr ⟨hx, hnk⟩

theorem sumLens_foldl (l : List (Key × Item)) (a : Int) :
    l.foldl (fun b p => b + (p.2.data.length : Int)) a = a + sumLens l := by
  induction l generalizing a with
  | nil => simp [sumLens]
  | cons p l ih =>
    show l.foldl _ (a + _) = _
    rw [ih]
    have : sumLens (p :: l) = l.foldl (fun b q => b + (q.2.data.length : Int))
        (0 + (p.2.data.length : Int)) := rfl
    rw [this, ih]
    ring

theorem sumLens_cons (p : Key × Item) (l : List (Key × Item)) :
    sumLens (p :: l) = (p.2.data.length : Int) + sumLens l := by
  have : sumLens (p :: l) = l.foldl (fun b q => b + (q.2.data.length : Int))
      (0 + (p.2.data.length : Int)) := rfl
  rw [this, sumLens_foldl]
  ring

/-- Claim C1, evaluated at the failing input: on a fresh cache with size
limit 100, `Put "k"` of a 2-byte value followed by `Put "k"` of a 3-byte
value leaves the size counter at 5 although the stored lengths sum to 3,
and likewise for `PutWithTTL`: `Put`/`PutWithTTL` add the new length to
the counter without subtracting the overwritten entry's length, so the
counter does not equal the sum of stored lengths after an overwrite of
an existing key, contrary to the claimed invariant and net-delta
adjustment. -/
theorem put_overwrite_size_counter_bug :
    (Put (Put (initState 100) "k" [0, 1] 0) "k" [0, 1, 2] 1).size = 5 ∧
    sumLens (Put (Put (initState 100) "k" [0, 1] 0) "k" [0, 1, 2] 1).storage = 3 ∧
    (PutWithTTL (PutWithTTL (initState 100) "k" [0, 1] 0 9) "k" [0, 1, 2] 1 9).size = 5 ∧
    sumLens (PutWithTTL (PutWithTTL (initState 100) "k" [0, 1] 0 9) "k" [0, 1, 2] 1 9).storage
      = 3 := by
  decide

/-- Claim C4: when the stored entry for a key has its expiry set and in
the past, `Get` marks the key in the expired-pending set, returns
`ErrNotFound`, and leaves the entry itself in the storage map. -/
theorem get_expired_marks_pending_keeps_entry (c : Cache) (k : Key) (now : Nat) (i : Item)
    (t : Nat) (hi : mapLookup k c.storage = some i) (ht : i.ttl = some t) (hlt : t < now) :
    Get c k now = (Except.error ErrNotFound, { c with expired := setInsert k c.expired }) ∧
    mapLookup k (Get c k now).2.storage = some i := by
  have h1 : Get c k now = (Except.error ErrNotFound,
      { c with expired := setInsert k c.expired }) := by
    unfold Get
    rw [hi]
    dsimp only
    rw [ht]
    dsimp only
    rw [if_pos hlt]
  exact ⟨h1, by rw [h1]; exact hi⟩

/-- Witness for C4 at a concrete state: entry `"k"` with TTL 5 read at
time 10. -/
theorem get_expired_marks_pending_keeps_entry_witness :
    Get { storage := [("k", { data := [7], ttl := some 5, lu := 0 })], expired := [],
          sizeLimit := 100, size := 1 } "k" 10 =
      (Except.error ErrNotFound,
        { storage := [("k", { data := [7], ttl := some 5, lu := 0 })], expired := ["k"],
          sizeLimit := 100, size := 1 }) :=
  (get_expired_marks_pending_keeps_entry
    { storage := [("k", { data := [7], ttl := some 5, lu := 0 })], expired := [],
      sizeLimit := 100, size := 1 }
    "k" 10 { data := [7], ttl := some 5, lu := 0 } 5 (by decide) rfl (by decide)).1

/-- Claim C5: for data strictly smaller than the size limit, `Put`
followed immediately by `Get` succeeds and returns exactly that data. -/
theorem put_then_get_returns_data (c : Cache) (k : Key) (d : Bytes) (n1 n2 : Nat)
    (h : (d.length : Int) < c.sizeLimit) :
    (Get (Put c k d n1) k n2).1 = Except.ok d := by
  unfold Put
  rw [if_neg (not_le.mpr h)]
  unfold Get
  rw [show mapLookup k (mapInsert k { data := d, ttl := none, lu := n1 } c.storage) =
    some { data := d, ttl := none, lu := n1 } from mapLookup_insert_self ..]

/-- Witness for C5 on a fresh cache with limit 100. -/
theorem put_then_get_returns_data_witness :
    (Get (Put (initState 100) "k" [1, 2, 3] 0) "k" 7).1 = Except.ok [1, 2, 3] :=
  put_then_get_returns_data (initState 100) "k" [1, 2, 3] 0 7 (by decide)

/-- Claim C6: for data under the size limit and a positive TTL,
`PutWithTTL` then `Get` returns the data while the deadline has not
passed, and returns `ErrNotFound` once it has, with no background pass
in between. -/
theorem putWithTTL_get_ttl_semantics (c : Cache) (k : Key) (d : Bytes) (n1 ttl n2 : Nat)
    (hd : (d.length : Int) < c.sizeLimit) (hpos : 0 < ttl) :
    (n2 < n1 + ttl → (Get (PutWithTTL c k d n1 ttl) k n2).1 = Except.ok d) ∧
    (n1 + ttl < n2 → (Get (PutWithTTL c k d n1 ttl) k n2).1 = Except.error ErrNotFound) := by
  unfold PutWithTTL
  rw [if_neg (not_le.mpr hd)]
  unfold Get
  rw [show mapLookup k (mapInsert k { data := d, ttl := some (n1 + ttl), lu := n1 } c.storage)
    = some { data := d, ttl := some (n1 + ttl), lu := n1 } from mapLookup_insert_self ..]
  dsimp only
  constructor
  · intro h2
    rw [if_neg (by omega)]
  · intro h2
    rw [if_pos h2]

/-- Witness for C6: `PutWithTTL` at time 0 with TTL 5; `Get` at time 3
returns the data, `Get` at time 8 returns `ErrNotFound`. -/
theorem putWithTTL_get_ttl_semantics_witness :
    (Get (PutWithTTL (initState 100) "k" [9] 0 5) "k" 3).1 = Except.ok [9] ∧
    (Get (PutWithTTL (initState 100) "k" [9] 0 5) "k" 8).1 = Except.error ErrNotFound :=
  ⟨(putWithTTL_get_ttl_semantics (initState 100) "k" [9] 0 5 3 (by decide) (by decide)).1
      (by decide),
   (putWithTTL_get_ttl_semantics (initState 100) "k" [9] 0 5 8 (by decide) (by decide)).2
      (by decide)⟩

/-- Claim C7: for data whose length reaches the size limit, `Put` and
`PutWithTTL` return with the whole state (storage, counter, pending set)
unchanged — they have no error channel at all in the source — and a
subsequent `Get` of the key returns `ErrNotFound` when the key was not
already present. -/
theorem oversized_put_is_noop (c : Cache) (k : Key) (d : Bytes) (n ttl : Nat)
    (h : c.sizeLimit ≤ (d.length : Int)) :
    Put c k d n = c ∧ PutWithTTL c k d n ttl = c ∧
    (mapLookup k c.storage = none →
      (Get (Put c k d n) k n).1 = Except.error ErrNotFound) := by
  have hp : Put c k d n = c := by unfold Put; rw [if_pos h]
  have hpt : PutWithTTL c k d n ttl = c := by unfold PutWithTTL; rw [if_pos h]
  refine ⟨hp, hpt, fun habs => ?_⟩
  rw [hp]
  unfold Get
  rw [habs]

/-- Witness for C7: a 3-byte value against size limit 2 on a fresh
cache. -/
theorem oversized_put_is_noop_witness :
    Put (initState 2) "k" [1, 2, 3] 0 = initState 2 ∧
    PutWithTTL (initState 2) "k" [1, 2, 3] 0 9 = initState 2 ∧
    (mapLookup "k" (initState 2).storage = none →
      (Get (Put (initState 2) "k" [1, 2, 3] 0) "k" 0).1 = Except.error ErrNotFound) :=
  oversized_put_is_noop (initState 2) "k" [1, 2, 3] 0 9 (by decide)

theorem has_state_eq (c : Cache) (k : Key) (now : Nat) : (Has c k now).2 = c := by
  unfold Has
  cases h : mapLookup k c.storage with
  | none => rfl
  | some i =>
    obtain ⟨d, tl, lu⟩ := i
    cases tl <;> rfl

/-- Claim C9: `Has` changes no cache state at all — storage map,
last-used stamps, pending set and size counter are identical before and
after, and in particular a time-expired entry is not marked expired. -/
theorem has_leaves_state_unchanged (c : Cache) (k : Key) (now : Nat) :
    (Has c k now).2 = c :=
  has_state_eq c k now

theorem clearStep_expired (acc : Cache) (k : Key) :
    (clearStep acc k).expired = setErase k acc.expired := by
  unfold clearStep
  cases mapLookup k acc.storage <;> rfl

theorem foldl_clearStep_expired (l : List Key) (acc : Cache) :
    (l.foldl clearStep acc).expired = l.foldl (fun s k => setErase k s) acc.expired := by
  induction l generalizing acc with
  | nil => rfl
  | cons k l ih =>
    rw [List.foldl_cons, List.foldl_cons, ih, clearStep_expired]

theorem setErase_foldl_nil (l : List Key) (s : List Key) (h : ∀ x ∈ s, x ∈ l) :
    l.foldl (fun s k => setErase k s) s = [] := by
  induction l generalizing s with
  | nil => exact List.eq_nil_iff_forall_not_mem.mpr fun x hx => (List.not_mem_nil x) (h x hx)
  | cons k l ih =>
    rw [List.foldl_cons]
    apply ih
    intro x hx
    obtain ⟨hxs, hxk⟩ := mem_setErase.mp hx
    rcases List.mem_cons.mp (h x hxs) with rfl | hxl
    · exact absurd rfl hxk
    · exact hxl

/-- The Reaper pass always fully drains the expired-pending set. -/
theorem clearPass_expired (c : Cache) : (clearPass c).expired = [] := by
  rw [clearPass, foldl_clearStep_expired]
  exact setErase_foldl_nil _ _ (fun x hx => hx)

/-- Claim C10: `Delete` removes the key's entry and decrements the size
counter by its data length, is a no-op for an absent key, leaves every
other entry and the whole pending set untouched, and a stale pending
mark survives until a Reaper drain (which always empties the pending
set). -/
theorem delete_frame_spec (c : Cache) (k : Key) :
    (Delete c k).expired = c.expired ∧
    (Delete c k).sizeLimit = c.sizeLimit ∧
    (mapLookup k c.storage = none → Delete c k = c) ∧
    (∀ i, mapLookup k c.storage = some i →
      (Delete c k).storage = mapErase k c.storage ∧
      mapLookup k (Delete c k).storage = none ∧
      (Delete c k).size = c.size - (i.data.length : Int)) ∧
    (∀ k2, ¬ k2 = k → mapLookup k2 (Delete c k).storage = mapLookup k2 c.storage) ∧
    (clearPass (Delete c k)).expired = [] := by
  cases h : mapLookup k c.storage with
  | none =>
    have hd : Delete c k = c := by
      unfold Delete
      rw [h]
    refine ⟨by rw [hd], by rw [hd], fun _ => hd, ?_, ?_, clearPass_expired _⟩
    · intro i hi
      cases hi
    · intro k2 _
      rw [hd]
  | some i =>
    have hd : Delete c k =
        { c with
          storage := mapErase k c.storage
          size := c.size - (i.data.length : Int) } := by
      unfold Delete
      rw [h]
    refine ⟨by rw [hd], by rw [hd], ?_, ?_, ?_, clearPass_expired _⟩
    · intro hnone
      cases hnone
    · intro j hj
      injection hj with hj
      subst hj
      exact ⟨by rw [hd], by rw [hd]; exact mapLookup_erase_self .., by rw [hd]⟩
    · intro k2 hk2
      rw [hd]
      exact mapLookup_erase_ne k k2 c.storage hk2

theorem get_error_frame (c : Cache) (k : Key) (now : Nat)
    (h : (Get c k now).1 = Except.error ErrNotFound) :
    (Get c k now).2.storage = c.storage ∧ (Get c k now).2.size = c.size ∧
    (Get c k now).2.sizeLimit = c.sizeLimit := by
  unfold Get at h ⊢
  cases hm : mapLookup k c.storage with
  | none => exact ⟨rfl, rfl, rfl⟩
  | some i =>
    rw [hm] at h
    obtain ⟨d, tl, lu⟩ := i
    cases tl with
    | none =>
      dsimp only at h
      exact Except.noConfusion h
    | some t =>
      dsimp only at h ⊢
      by_cases hlt : t < now
      · rw [if_pos hlt]
        exact ⟨rfl, rfl, rfl⟩
      · rw [if_neg hlt] at h
        exact Except.noConfusion h

/-- Claim C8 (amended): on a miss (key absent, or visible only as
expired), the internal `Get` leaves the storage map and size counter
unchanged (it may add an expired key's pending mark); a failing callback
has its error returned verbatim by both `GetOrNew` and
`GetOrNewWithTTL` with nothing stored; a succeeding callback has its
data returned and stored through `Put`/`PutWithTTL` — which actually
stores it exactly when `len(data) < sizeLimit`, and silently stores
nothing otherwise. -/
theorem getOrNew_miss_contract (c : Cache) (k : Key) (now ttl : Nat)
    (cb : Key → Except String Bytes)
    (hmiss : (Get c k now).1 = Except.error ErrNotFound) :
    ((Get c k now).2.storage = c.storage ∧ (Get c k now).2.size = c.size) ∧
    (∀ e, cb k = Except.error e →
      GetOrNew c k now cb = (Except.error e, (Get c k now).2) ∧
      GetOrNewWithTTL c k now ttl cb = (Except.error e, (Get c k now).2)) ∧
    (∀ d, cb k = Except.ok d →
      GetOrNew c k now cb = (Except.ok d, Put (Get c k now).2 k d now) ∧
      GetOrNewWithTTL c k now ttl cb
        = (Except.ok d, PutWithTTL (Get c k now).2 k d now ttl) ∧
      ((d.length : Int) < c.sizeLimit →
        mapLookup k (GetOrNew c k now cb).2.storage
          = some { data := d, ttl := none, lu := now }) ∧
      (c.sizeLimit ≤ (d.length : Int) →
        (GetOrNew c k now cb).2 = (Get c k now).2 ∧
        (GetOrNewWithTTL c k now ttl cb).2 = (Get c k now).2)) := by
  have hframe := get_error_frame c k now hmiss
  have hpair : Get c k now = (Except.error ErrNotFound, (Get c k now).2) := by
    rw [← hmiss]
  refine ⟨⟨hframe.1, hframe.2.1⟩, ?_, ?_⟩
  · intro e hcb
    constructor
    · unfold GetOrNew
      rw [hpair]
      dsimp only
      rw [hcb]
    · unfold GetOrNewWithTTL
      rw [hpair]
      dsimp only
      rw [hcb]
  · intro d hcb
    have h1 : GetOrNew c k now cb = (Except.ok d, Put (Get c k now).2 k d now) := by
      unfold GetOrNew
      rw [hpair]
      dsimp only
      rw [hcb]
    have h2 : GetOrNewWithTTL c k now ttl cb
        = (Except.ok d, PutWithTTL (Get c k now).2 k d now ttl) := by
      unfold GetOrNewWithTTL
      rw [hpair]
      dsimp only
      rw [hcb]
    refine ⟨h1, h2, ?_, ?_⟩
    · intro hlen
      rw [h1]
      dsimp only
      unfold Put
      rw [hframe.2.2, if_neg (not_le.mpr hlen)]
      exact mapLookup_insert_self ..
    · intro hlen
      constructor
      · rw [h1]
        dsimp only
        unfold Put
        rw [hframe.2.2, if_pos hlen]
      · rw [h2]
        dsimp only
        unfold PutWithTTL
        rw [hframe.2.2, if_pos hlen]

/-- Claim C8 counterexample: for a key visible only as expired and a
failing callback, `GetOrNew` returns the callback's error but does not
leave the cache state unchanged — the internal `Get` adds the key to
the expired-pending set. -/
theorem getOrNew_error_mutates_pending_cex :
    (GetOrNew c8state "k" 10 cbFail).1 = Except.error "boom" ∧
    ¬ (GetOrNew c8state "k" 10 cbFail).2 = c8state ∧
    (GetOrNew c8state "k" 10 cbFail).2.expired = ["k"] := by
  decide

/-- Witness for C8 (amended): on a fresh cache, a failing callback's
error comes back verbatim through `GetOrNew`. -/
theorem getOrNew_miss_contract_witness :
    GetOrNew (initState 100) "k" 0 cbFail
      = (Except.error "boom", (Get (initState 100) "k" 0).2) :=
  ((getOrNew_miss_contract (initState 100) "k" 0 5 cbFail (by decide)).2.1 "boom" rfl).1

theorem mapLookup_mem {p : Key × Item} {m : List (Key × Item)} (h : p ∈ m) :
    ∃ i, mapLookup p.1 m = some i := by
  induction m with
  | nil => cases h
  | cons a l ih =>
    by_cases ha : a.1 = p.1
    · exact ⟨a.2, by rw [mapLookup, if_pos ha]⟩
    · rcases List.mem_cons.mp h with rfl | hl
      · exact absurd rfl ha
      · obtain ⟨i, hi⟩ := ih hl
        exact ⟨i, by rw [mapLookup, if_neg ha]; exact hi⟩

theorem pendingInStore_mapInsert {st : List (Key × Item)} {ex : List Key} {L S : Int}
    (h : PendingInStore ⟨st, ex, L, S⟩) (k : Key) (v : Item) {ex2 : List Key} {L2 S2 : Int}
    (hex : ∀ x ∈ ex2, x = k ∨ x ∈ ex) :
    PendingInStore ⟨mapInsert k v st, ex2, L2, S2⟩ := by
  intro k2 hk2
  by_cases hkk : k2 = k
  · subst hkk
    exact ⟨v, mapLookup_insert_self ..⟩
  · rcases hex k2 hk2 with rfl | hk2e
    · exact ⟨v, mapLookup_insert_self ..⟩
    · obtain ⟨j, hj⟩ := h k2 hk2e
      exact ⟨j, by rw [mapLookup_insert_ne k k2 v st hkk]; exact hj⟩

theorem pendingInStore_mark {st : List (Key × Item)} {ex : List Key} {L S : Int}
    (h : PendingInStore ⟨st, ex, L, S⟩) (k : Key) (i : Item) (hm : mapLookup k st = some i) :
    PendingInStore ⟨st, setInsert k ex, L, S⟩ := by
  intro k2 hk2
  rcases mem_setInsert.mp hk2 with rfl | hk2
  · exact ⟨i, hm⟩
  · exact h k2 hk2

theorem pendingInStore_Get (c : Cache) (k : Key) (now : Nat) (h : PendingInStore c) :
    PendingInStore (Get c k now).2 := by
  obtain ⟨st, ex, L, S⟩ := c
  unfold Get
  cases hm : mapLookup k st with
  | none => exact h
  | some i =>
    obtain ⟨d, tl, lu⟩ := i
    cases tl with
    | none => exact pendingInStore_mapInsert h k _ (fun x hx => Or.inr hx)
    | some t =>
      dsimp only
      by_cases hlt : t < now
      · rw [if_pos hlt]
        exact pendingInStore_mark h k _ hm
      · rw [if_neg hlt]
        exact pendingInStore_mapInsert h k _ (fun x hx => Or.inr hx)

theorem pendingInStore_Put (c : Cache) (k : Key) (d : Bytes) (now : Nat)
    (h : PendingInStore c) : PendingInStore (Put c k d now) := by
  obtain ⟨st, ex, L, S⟩ := c
  unfold Put
  dsimp only
  by_cases hl : L ≤ (d.length : Int)
  · rw [if_pos hl]
    exact h
  · rw [if_neg hl]
    exact pendingInStore_mapInsert h k _ (fun x hx => Or.inr (mem_setErase.mp hx).1)

theorem pendingInStore_PutWithTTL (c : Cache) (k : Key) (d : Bytes) (now ttl : Nat)
    (h : PendingInStore c) : PendingInStore (PutWithTTL c k d now ttl) := by
  obtain ⟨st, ex, L, S⟩ := c
  unfold PutWithTTL
  dsimp only
  by_cases hl : L ≤ (d.length : Int)
  · rw [if_pos hl]
    exact h
  · rw [if_neg hl]
    exact pendingInStore_mapInsert h k _ (fun x hx => Or.inr (mem_setErase.mp hx).1)

theorem pendingInStore_GetOrNew (c : Cache) (k : Key) (now : Nat)
    (cb : Key → Except String Bytes) (h : PendingInStore c) :
    PendingInStore (GetOrNew c k now cb).2 := by
  have hg := pendingInStore_Get c k now h
  unfold GetOrNew
  rcases hge : Get c k now with ⟨r, c1⟩
  rw [hge] at hg
  rcases r with e | d
  · cases hcb : cb k with
    | error e2 => exact hg
    | ok d => exact pendingInStore_Put c1 k d now hg
  · exact hg

theorem pendingInStore_GetOrNewWithTTL (c : Cache) (k : Key) (now ttl : Nat)
    (cb : Key → Except String Bytes) (h : PendingInStore c) :
    PendingInStore (GetOrNewWithTTL c k now ttl cb).2 := by
  have hg := pendingInStore_Get c k now h
  unfold GetOrNewWithTTL
  rcases hge : Get c k now with ⟨r, c1⟩
  rw [hge] at hg
  rcases r with e | d
  · cases hcb : cb k with
    | error e2 => exact hg
    | ok d => exact pendingInStore_PutWithTTL c1 k d now ttl hg
  · exact hg

theorem scanFold_mem (now : Nat) (l : List (Key × Item)) :
    ∀ (acc : List Key) (x : Key),
      x ∈ l.foldl (fun acc p =>
        match p.2.ttl with
        | some t => if t < now then setInsert p.1 acc else acc
        | none => acc) acc →
      x ∈ acc ∨ ∃ p, p ∈ l ∧ p.1 = x := by
  induction l with
  | nil => exact fun acc x hx => Or.inl hx
  | cons p rest ih =>
    intro acc x hx
    rw [List.foldl_cons] at hx
    have step : ∀ acc2 : List Key,
        (match p.2.ttl with
          | some t => if t < now then setInsert p.1 acc2 else acc2
          | none => acc2) = acc2 ∨
        (match p.2.ttl with
          | some t => if t < now then setInsert p.1 acc2 else acc2
          | none => acc2) = setInsert p.1 acc2 := by
      intro acc2
      cases p.2.ttl with
      | none => exact Or.inl rfl
      | some t =>
        dsimp only
        by_cases hlt : t < now
        · rw [if_pos hlt]
          exact Or.inr rfl
        · rw [if_neg hlt]
          exact Or.inl rfl
    rcases ih _ x hx with hacc | ⟨q, hq, hqx⟩
    · rcases step acc with heq | heq
      · rw [heq] at hacc
        exact Or.inl hacc
      · rw [heq] at hacc
        rcases mem_setInsert.mp hacc with rfl | hacc2
        · exact Or.inr ⟨p, List.mem_cons_self p rest, rfl⟩
        · exact Or.inl hacc2
    · exact Or.inr ⟨q, List.mem_cons_of_mem p hq, hqx⟩

theorem pendingInStore_scan (c : Cache) (now : Nat) (h : PendingInStore c) :
    PendingInStore (scanPass c now) := by
  intro k hk
  have hx : k ∈ c.expired ∨ ∃ p, p ∈ c.storage ∧ p.1 = k :=
    scanFold_mem now c.storage c.expired k hk
  rcases hx with hke | ⟨p, hp, rfl⟩
  · exact h k hke
  · exact mapLookup_mem hp

theorem pendingInStore_clearStep (acc : Cache) (k : Key) (h : PendingInStore acc) :
    PendingInStore (clearStep acc k) := by
  unfold clearStep
  cases hm : mapLookup k acc.storage with
  | none =>
    intro k2 hk2
    exact h k2 (mem_setErase.mp hk2).1
  | some i =>
    intro k2 hk2
    obtain ⟨hk2e, hk2k⟩ := mem_setErase.mp hk2
    obtain ⟨j, hj⟩ := h k2 hk2e
    exact ⟨j, by rw [mapLookup_erase_ne k k2 _ hk2k]; exact hj⟩

theorem pendingInStore_foldl_clearStep (l : List Key) (c : Cache) (h : PendingInStore c) :
    PendingInStore (l.foldl clearStep c) := by
  induction l generalizing c with
  | nil => exact h
  | cons k l ih => exact ih _ (pendingInStore_clearStep c k h)

theorem pendingInStore_clearPass (c : Cache) (h : PendingInStore c) :
    PendingInStore (clearPass c) :=
  pendingInStore_foldl_clearStep c.expired c h

theorem pendingInStore_step (c : Cache) (op : Op) (hop : opKeepsPending op = true)
    (h : PendingInStore c) : PendingInStore (step c op) := by
  cases op with
  | get k now => exact pendingInStore_Get c k now h
  | put k d now => exact pendingInStore_Put c k d now h
  | putTTL k d now ttl => exact pendingInStore_PutWithTTL c k d now ttl h
  | has k now => rw [show step c (Op.has k now) = (Has c k now).2 from rfl, has_state_eq]; exact h
  | del k => exact Bool.noConfusion hop
  | getOrNew k now cb => exact pendingInStore_GetOrNew c k now cb h
  | getOrNewTTL k now ttl cb => exact pendingInStore_GetOrNewWithTTL c k now ttl cb h
  | scan now => exact pendingInStore_scan c now h
  | clear => exact pendingInStore_clearPass c h
  | compact => exact Bool.noConfusion hop

theorem pendingInStore_runOps (c : Cache) (ops : List Op) (hc : PendingInStore c)
    (hops : ops.all opKeepsPending = true) : PendingInStore (runOps c ops) := by
  induction ops generalizing c with
  | nil => exact hc
  | cons op l ih =>
    rw [List.all_cons, Bool.and_eq_true] at hops
    exact ih (step c op) (pendingInStore_step c op hops.1 hc) hops.2

/-- Claim C3 (amended): starting from the fresh cache, along any
sequence of public operations and background passes that contains no
`Delete` and no compaction pass, every key in the expired-pending set
exists in the storage map.  (`Delete` and compaction remove a stored
entry without clearing its pending mark, so the unrestricted claim
fails; see the counterexample.) -/
theorem pending_in_store_without_delete_compact (L : Int) (ops : List Op)
    (hops : ops.all opKeepsPending = true) :
    PendingInStore (runOps (initState L) ops) :=
  pendingInStore_runOps (initState L) ops
    (fun k hk => absurd hk (List.not_mem_nil k)) hops

/-- Witness for C3 (amended) on a concrete operation sequence that marks
a key expired via `Get`. -/
theorem pending_in_store_without_delete_compact_witness :
    PendingInStore (runOps (initState 100) [Op.putTTL "k" [0] 0 5, Op.get "k" 10]) :=
  pending_in_store_without_delete_compact 100 [Op.putTTL "k" [0] 0 5, Op.get "k" 10]
    (by decide)

/-- Claim C3 counterexample: the reachable state after
`PutWithTTL "k" (ttl 5)` at time 0, `Get "k"` at time 10 (which marks
`"k"` expired-pending), and `Delete "k"` has `"k"` in the pending set
but not in the storage map: `Delete` does not clear pending marks. -/
theorem pending_key_absent_after_delete_cex :
    ¬ PendingInStore
      (runOps (initState 100) [Op.putTTL "k" [0] 0 5, Op.get "k" 10, Op.del "k"]) := by
  intro hP
  have h2 : mapLookup "k"
      (runOps (initState 100) [Op.putTTL "k" [0] 0 5, Op.get "k" 10, Op.del "k"]).storage
      = none := by decide
  obtain ⟨i, hi⟩ := hP "k" (by decide)
  rw [h2] at hi
  exact Option.noConfusion hi

/-- Witness for C10 at a concrete state with the key present. -/
theorem delete_frame_spec_witness :
    (Delete c10state "k").storage = mapErase "k" c10state.storage ∧
    (Delete c10state "k").size = c10state.size - 2 ∧
    (Delete c10state "k").expired = c10state.expired :=
  ⟨((delete_frame_spec c10state "k").2.2.2.1
      { data := [1, 2], ttl := none, lu := 0 } (by decide)).1,
   ((delete_frame_spec c10state "k").2.2.2.1
      { data := [1, 2], ttl := none, lu := 0 } (by decide)).2.2,
   (delete_frame_spec c10state "k").1⟩

theorem compactSnapAux_snd (m : List (Key × Item)) :
    ∀ (a : List (Nat × Key)) (b : List Nat),
      (m.foldl (fun acc p => (smapInsert p.2.lu p.1 acc.1, acc.2 ++ [p.2.lu])) (a, b)).2
        = b ++ m.map (fun p => p.2.lu) := by
  induction m with
  | nil =>
    intro a b
    simp
  | cons p rest ih =>
    intro a b
    rw [List.foldl_cons]
    dsimp only
    rw [ih]
    simp

theorem compactSnapAux_fst (m : List (Key × Item)) :
    ∀ (a : List (Nat × Key)) (b : List Nat),
      (m.foldl (fun acc p => (smapInsert p.2.lu p.1 acc.1, acc.2 ++ [p.2.lu])) (a, b)).1
        = buildSmap m a := by
  induction m with
  | nil =>
    intro a b
    rfl
  | cons p rest ih =>
    intro a b
    rw [List.foldl_cons, buildSmap, List.foldl_cons]
    exact ih _ _

theorem compactSnap_snd (m : List (Key × Item)) :
    (compactSnap m).2 = m.map (fun p => p.2.lu) := by
  rw [compactSnap, compactSnapAux_snd]
  rfl

theorem compactSnap_fst (m : List (Key × Item)) :
    (compactSnap m).1 = buildSmap m [] := by
  rw [compactSnap, compactSnapAux_fst]

theorem smapLookup_erase_ne (n n2 : Nat) (acc : List (Nat × Key)) (h : ¬ n2 = n) :
    smapLookup n2 (smapErase n acc) = smapLookup n2 acc := by
  induction acc with
  | nil => rfl
  | cons a l ih =>
    by_cases ha : a.1 = n
    · have ha2 : ¬ a.1 = n2 := by rw [ha]; exact fun hh => h hh.symm
      rw [smapErase, if_pos ha, smapLookup, if_neg ha2]
      exact ih
    · rw [smapErase, if_neg ha, smapLookup, smapLookup]
      by_cases hb : a.1 = n2
      · rw [if_pos hb, if_pos hb]
      · rw [if_neg hb, if_neg hb]
        exact ih

theorem smapLookup_insert_self (n : Nat) (k : Key) (acc : List (Nat × Key)) :
    smapLookup n (smapInsert n k acc) = k := by
  rw [smapInsert, smapLookup, if_pos rfl]

theorem smapLookup_insert_ne (n n2 : Nat) (k : Key) (acc : List (Nat × Key)) (h : ¬ n2 = n) :
    smapLookup n2 (smapInsert n k acc) = smapLookup n2 acc := by
  have hn : ¬ n = n2 := fun hh => h hh.symm
  rw [smapInsert, smapLookup, if_neg hn]
  exact smapLookup_erase_ne n n2 acc h

theorem buildSmap_lookup_fresh (m : List (Key × Item)) :
    ∀ (a : List (Nat × Key)) (n : Nat), (∀ p ∈ m, ¬ p.2.lu = n) →
      smapLookup n (buildSmap m a) = smapLookup n a := by
  induction m with
  | nil =>
    intro a n _
    rfl
  | cons q rest ih =>
    intro a n h
    rw [buildSmap, List.foldl_cons]
    have h1 : smapLookup n (buildSmap rest (smapInsert q.2.lu q.1 a))
        = smapLookup n (smapInsert q.2.lu q.1 a) :=
      ih _ n (fun p hp => h p (List.mem_cons_of_mem q hp))
    rw [show List.foldl (fun acc p => smapInsert p.2.lu p.1 acc) (smapInsert q.2.lu q.1 a) rest
        = buildSmap rest (smapInsert q.2.lu q.1 a) from rfl, h1]
    exact smapLookup_insert_ne q.2.lu n q.1 a
      (fun hh => h q (List.mem_cons_self q rest) hh.symm)

theorem buildSmap_resolves (m : List (Key × Item)) :
    ∀ (a : List (Nat × Key)), (m.map (fun p => p.2.lu)).Nodup →
      ∀ p ∈ m, smapLookup p.2.lu (buildSmap m a) = p.1 := by
  induction m with
  | nil =>
    intro a _ p hp
    cases hp
  | cons q rest ih =>
    intro a hnd p hp
    obtain ⟨hq, hrest⟩ := List.nodup_cons.mp hnd
    rw [buildSmap, List.foldl_cons,
      show List.foldl (fun acc p => smapInsert p.2.lu p.1 acc) (smapInsert q.2.lu q.1 a) rest
        = buildSmap rest (smapInsert q.2.lu q.1 a) from rfl]
    rcases List.mem_cons.mp hp with rfl | hp2
    · have hfresh : ∀ r ∈ rest, ¬ r.2.lu = p.2.lu := by
        intro r hr hh
        exact hq (List.mem_map.mpr ⟨r, hr, hh⟩)
      rw [buildSmap_lookup_fresh rest _ _ hfresh]
      exact smapLookup_insert_self ..
    · exact ih _ hrest p hp2

theorem mapLookup_of_mem_nodup {m : List (Key × Item)} {p : Key × Item}
    (hnd : (m.map (fun q => q.1)).Nodup) (hp : p ∈ m) : mapLookup p.1 m = some p.2 := by
  induction m with
  | nil => cases hp
  | cons a l ih =>
    obtain ⟨ha, hl⟩ := List.nodup_cons.mp hnd
    rcases List.mem_cons.mp hp with rfl | hp2
    · rw [mapLookup, if_pos rfl]
    · have hak : ¬ a.1 = p.1 := by
        intro hh
        exact ha (List.mem_map.mpr ⟨p, hp2, hh.symm⟩)
      rw [mapLookup, if_neg hak]
      exact ih hl hp2

theorem mem_mapErase {q : Key × Item} {k : Key} {m : List (Key × Item)} :
    q ∈ mapErase k m → q ∈ m ∧ ¬ q.1 = k := by
  induction m with
  | nil => intro h; cases h
  | cons a l ih =>
    by_cases ha : a.1 = k
    · rw [mapErase, if_pos ha]
      intro h
      obtain ⟨h1, h2⟩ := ih h
      exact ⟨List.mem_cons_of_mem a h1, h2⟩
    · rw [mapErase, if_neg ha]
      intro h
      rcases List.mem_cons.mp h with rfl | h2
      · exact ⟨List.mem_cons_self q l, ha⟩
      · obtain ⟨h1, h2⟩ := ih h2
        exact ⟨List.mem_cons_of_mem a h1, h2⟩

theorem removeKeys_lookup_not_mem (rem : List (Key × Item)) :
    ∀ (st : List (Key × Item)) (k2 : Key), ¬ k2 ∈ rem.map (fun p => p.1) →
      mapLookup k2 (removeKeys rem st) = mapLookup k2 st := by
  induction rem with
  | nil =>
    intro st k2 _
    rfl
  | cons p rest ih =>
    intro st k2 h
    have h1 : ¬ k2 = p.1 := by
      intro hh
      apply h
      rw [List.map_cons, hh]
      exact List.mem_cons_self _ _
    have h2 : ¬ k2 ∈ rest.map (fun p => p.1) := by
      intro hh
      apply h
      rw [List.map_cons]
      exact List.mem_cons_of_mem _ hh
    rw [removeKeys, ih _ _ h2]
    exact mapLookup_erase_ne p.1 k2 st h1

theorem removeKeys_all (rem : List (Key × Item)) :
    ∀ st, (∀ q ∈ st, q.1 ∈ rem.map (fun p => p.1)) → removeKeys rem st = [] := by
  induction rem with
  | nil =>
    intro st h
    cases st with
    | nil => rfl
    | cons q l => exact absurd (h q (List.mem_cons_self q l)) (List.not_mem_nil _)
  | cons p rest ih =>
    intro st h
    rw [removeKeys]
    apply ih
    intro q hq
    obtain ⟨hq1, hq2⟩ := mem_mapErase hq
    have := h q hq1
    rw [List.map_cons] at this
    rcases List.mem_cons.mp this with hh | hh
    · exact absurd hh hq2
    · exact hh

theorem evictOrderSpec_subset (es : List (Key × Item)) :
    ∀ (sz lim : Int) (q : Key × Item), q ∈ evictOrderSpec es sz lim → q ∈ es := by
  induction es with
  | nil =>
    intro sz lim q h
    cases h
  | cons p rest ih =>
    intro sz lim q h
    rw [evictOrderSpec] at h
    by_cases hstop : sz - (p.2.data.length : Int) < lim
    · rw [if_pos hstop] at h
      rcases List.mem_cons.mp h with rfl | h2
      · exact List.mem_cons_self ..
      · cases h2
    · rw [if_neg hstop] at h
      rcases List.mem_cons.mp h with rfl | h2
      · exact List.mem_cons_self ..
      · exact List.mem_cons_of_mem p (ih _ _ q h2)

theorem evictOrderSpec_stop (es : List (Key × Item)) :
    ∀ (sz lim : Int),
      sz - sumLens (evictOrderSpec es sz lim) < lim ∨ evictOrderSpec es sz lim = es := by
  induction es with
  | nil =>
    intro sz lim
    exact Or.inr rfl
  | cons p rest ih =>
    intro sz lim
    rw [evictOrderSpec]
    by_cases hstop : sz - (p.2.data.length : Int) < lim
    · left
      rw [if_pos hstop, sumLens_cons]
      have hz : sumLens ([] : List (Key × Item)) = 0 := rfl
      omega
    · rw [if_neg hstop]
      rcases ih (sz - (p.2.data.length : Int)) lim with h | h
      · left
        rw [sumLens_cons]
        omega
      · right
        rw [h]

theorem evictOrderSpec_min (es : List (Key × Item)) :
    ∀ (sz lim : Int), lim ≤ sz →
      ∀ (pre suf : List (Key × Item)), pre ++ suf = evictOrderSpec es sz lim → ¬ suf = [] →
        lim ≤ sz - sumLens pre := by
  induction es with
  | nil =>
    intro sz lim hsz pre suf heq hsuf
    rw [show evictOrderSpec [] sz lim = [] from rfl] at heq
    exact absurd (List.append_eq_nil.mp heq).2 hsuf
  | cons p rest ih =>
    intro sz lim hsz pre suf heq hsuf
    rw [evictOrderSpec] at heq
    by_cases hstop : sz - (p.2.data.length : Int) < lim
    · rw [if_pos hstop] at heq
      cases pre with
      | nil =>
        have hz : sumLens ([] : List (Key × Item)) = 0 := rfl
        omega
      | cons a pre2 =>
        rw [List.cons_append] at heq
        injection heq with h1 h2
        exact absurd (List.append_eq_nil.mp h2).2 hsuf
    · rw [if_neg hstop] at heq
      cases pre with
      | nil =>
        have hz : sumLens ([] : List (Key × Item)) = 0 := rfl
        omega
      | cons a pre2 =>
        rw [List.cons_append] at heq
        injection heq with h1 h2
        subst h1
        have hrec := ih (sz - (a.2.data.length : Int)) lim (by omega) pre2 suf h2 hsuf
        rw [sumLens_cons]
        omega

theorem key_unique_head {p y : Key × Item} {rest : List (Key × Item)}
    (hy : y ∈ p :: rest) (hk : y.1 = p.1)
    (hnd : ((p :: rest).map (fun q => q.1)).Nodup) : y = p := by
  rcases List.mem_cons.mp hy with rfl | h2
  · rfl
  · rw [List.map_cons] at hnd
    obtain ⟨hp, _⟩ := List.nodup_cons.mp hnd
    exact absurd (List.mem_map.mpr ⟨y, h2, hk⟩) hp

theorem evictOrder_take (es : List (Key × Item)) :
    ∀ (sz lim : Int),
      ((es.map (fun p => p.1)).Nodup) →
      List.Pairwise (fun a b : Key × Item => a.2.lu < b.2.lu) es →
      ∀ x ∈ es, ∀ y ∈ es, x.2.lu < y.2.lu →
      ∀ n : Nat, y.1 ∈ ((evictOrderSpec es sz lim).map (fun p => p.1)).take n →
        x.1 ∈ ((evictOrderSpec es sz lim).map (fun p => p.1)).take n := by
  induction es with
  | nil =>
    intro sz lim _ _ x hx
    cases hx
  | cons p rest ih =>
    intro sz lim hnd hpw x hx y hy hlt n hyn
    obtain ⟨hphead, hpwtail⟩ := List.pairwise_cons.mp hpw
    by_cases hstop : sz - (p.2.data.length : Int) < lim
    · rw [evictOrderSpec, if_pos hstop] at hyn
      have hy1 : y.1 = p.1 := by
        have hmem := List.take_subset n _ hyn
        rw [List.map_cons] at hmem
        rcases List.mem_cons.mp hmem with hh | hh
        · exact hh
        · cases hh
      have hyp : y = p := key_unique_head hy hy1 hnd
      subst hyp
      rcases List.mem_cons.mp hx with rfl | hx2
      · exact absurd hlt (lt_irrefl _)
      · exact absurd hlt (not_lt.mpr (le_of_lt (hphead x hx2)))
    · rw [evictOrderSpec, if_neg hstop] at hyn ⊢
      rw [List.map_cons] at hyn ⊢
      cases n with
      | zero => cases hyn
      | succ n2 =>
        rw [List.take_succ_cons] at hyn ⊢
        rcases List.mem_cons.mp hyn with hy1 | hy2
        · have hyp : y = p := key_unique_head hy hy1 hnd
          subst hyp
          rcases List.mem_cons.mp hx with rfl | hx2
          · exact absurd hlt (lt_irrefl _)
          · exact absurd hlt (not_lt.mpr (le_of_lt (hphead x hx2)))
        · have hyrest : y ∈ rest := by
            rcases List.mem_cons.mp hy with rfl | h2
            · exfalso
              have hmem := List.take_subset n2 _ hy2
              obtain ⟨q, hq, hq1⟩ := List.mem_map.mp hmem
              have hqrest := evictOrderSpec_subset rest _ _ q hq
              rw [List.map_cons] at hnd
              obtain ⟨hp, _⟩ := List.nodup_cons.mp hnd
              exact hp (List.mem_map.mpr ⟨q, hqrest, hq1⟩)
            · exact h2
          rcases List.mem_cons.mp hx with rfl | hx2
          · exact List.mem_cons_self ..
          · have hnd2 : (rest.map (fun q => q.1)).Nodup := by
              rw [List.map_cons] at hnd
              exact (List.nodup_cons.mp hnd).2
            exact List.mem_cons_of_mem _
              (ih _ lim hnd2 hpwtail x hx2 y hyrest hlt n2 hy2)

theorem sortByLu_sorted (m : List (Key × Item)) :
    List.Pairwise (fun a b : Key × Item => a.2.lu ≤ b.2.lu) (sortByLu m) := by
  haveI h1 : IsTotal (Key × Item) (fun a b => a.2.lu ≤ b.2.lu) :=
    ⟨fun a b => Nat.le_total _ _⟩
  haveI h2 : IsTrans (Key × Item) (fun a b => a.2.lu ≤ b.2.lu) :=
    ⟨fun a b c hab hbc => Nat.le_trans hab hbc⟩
  exact List.sorted_insertionSort _ m

theorem map_lu_sortByLu (m : List (Key × Item)) :
    (sortByLu m).map (fun p => p.2.lu)
      = List.insertionSort (· ≤ ·) (m.map (fun p => p.2.lu)) := by
  exact List.eq_of_perm_of_sorted (r := fun a b : Nat => a ≤ b)
    (((List.perm_insertionSort _ m).map _).trans (List.perm_insertionSort _ _).symm)
    (List.pairwise_map.mpr (sortByLu_sorted m))
    (List.sorted_insertionSort _ _)

theorem sortByLu_pairwise_lt (m : List (Key × Item))
    (hlus : (m.map (fun p => p.2.lu)).Nodup) :
    List.Pairwise (fun a b : Key × Item => a.2.lu < b.2.lu) (sortByLu m) := by
  have hs := sortByLu_sorted m
  have hnd : ((sortByLu m).map (fun p => p.2.lu)).Nodup :=
    (((List.perm_insertionSort _ m).map _).nodup_iff).mpr hlus
  have hne : List.Pairwise (fun a b : Key × Item => ¬ a.2.lu = b.2.lu) (sortByLu m) :=
    List.pairwise_map.mp hnd
  exact (hs.and hne).imp (fun h => lt_of_le_of_ne h.1 h.2)

theorem compactLoop_cons_found (smap : List (Nat × Key)) (lim : Int) (n : Nat)
    (rest : List Nat) (st : List (Key × Item)) (sz : Int) (i : Item)
    (hm : mapLookup (smapLookup n smap) st = some i) :
    compactLoop smap lim (n :: rest) st sz =
      if sz - (i.data.length : Int) < lim then
        (mapErase (smapLookup n smap) st, sz - (i.data.length : Int), [smapLookup n smap])
      else
        ((compactLoop smap lim rest (mapErase (smapLookup n smap) st)
            (sz - (i.data.length : Int))).1,
         (compactLoop smap lim rest (mapErase (smapLookup n smap) st)
            (sz - (i.data.length : Int))).2.1,
         smapLookup n smap ::
           (compactLoop smap lim rest (mapErase (smapLookup n smap) st)
              (sz - (i.data.length : Int))).2.2) := by
  rw [compactLoop, hm]

theorem compactLoop_bridge (smap : List (Nat × Key)) (lim : Int) (es : List (Key × Item)) :
    ∀ (st : List (Key × Item)) (sz : Int),
      (∀ p ∈ es, mapLookup p.1 st = some p.2) →
      ((es.map (fun p => p.1)).Nodup) →
      (∀ p ∈ es, smapLookup p.2.lu smap = p.1) →
      compactLoop smap lim (es.map (fun p => p.2.lu)) st sz
        = (removeKeys (evictOrderSpec es sz lim) st,
           sz - sumLens (evictOrderSpec es sz lim),
           (evictOrderSpec es sz lim).map (fun p => p.1)) := by
  induction es with
  | nil =>
    intro st sz _ _ _
    show (st, sz, ([] : List Key)) = _
    rw [show evictOrderSpec [] sz lim = [] from rfl,
      show removeKeys [] st = st from rfl,
      show sumLens ([] : List (Key × Item)) = 0 from rfl, sub_zero]
    rfl
  | cons p rest ih =>
    intro st sz h1 h2 h3
    have hsm : smapLookup p.2.lu smap = p.1 := h3 p (List.mem_cons_self p rest)
    have hmm : mapLookup (smapLookup p.2.lu smap) st = some p.2 := by
      rw [hsm]
      exact h1 p (List.mem_cons_self p rest)
    rw [List.map_cons, compactLoop_cons_found smap lim _ _ st sz p.2 hmm, hsm]
    have h2tail : (rest.map (fun q => q.1)).Nodup := by
      rw [List.map_cons] at h2
      exact (List.nodup_cons.mp h2).2
    by_cases hstop : sz - (p.2.data.length : Int) < lim
    · rw [if_pos hstop,
        show evictOrderSpec (p :: rest) sz lim = [p] from by
          rw [evictOrderSpec, if_pos hstop]]
      rw [show removeKeys [p] st = mapErase p.1 st from rfl, sumLens_cons,
        show sumLens ([] : List (Key × Item)) = 0 from rfl]
      rw [show ([p].map (fun q => q.1)) = [p.1] from rfl]
      rw [add_zero]
    · rw [if_neg hstop]
      have h1tail : ∀ q ∈ rest, mapLookup q.1 (mapErase p.1 st) = some q.2 := by
        intro q hq
        have hne : ¬ q.1 = p.1 := by
          intro hh
          rw [List.map_cons] at h2
          obtain ⟨hp, _⟩ := List.nodup_cons.mp h2
          exact hp (List.mem_map.mpr ⟨q, hq, hh⟩)
        rw [mapLookup_erase_ne p.1 q.1 st hne]
        exact h1 q (List.mem_cons_of_mem p hq)
      have h3tail : ∀ q ∈ rest, smapLookup q.2.lu smap = q.1 :=
        fun q hq => h3 q (List.mem_cons_of_mem p hq)
      rw [ih (mapErase p.1 st) (sz - (p.2.data.length : Int)) h1tail h2tail h3tail]
      rw [show evictOrderSpec (p :: rest) sz lim
          = p :: evictOrderSpec rest (sz - (p.2.data.length : Int)) lim from by
        rw [evictOrderSpec, if_neg hstop]]
      rw [show removeKeys (p :: evictOrderSpec rest (sz - (p.2.data.length : Int)) lim) st
          = removeKeys (evictOrderSpec rest (sz - (p.2.data.length : Int)) lim)
              (mapErase p.1 st) from rfl]
      rw [List.map_cons, sumLens_cons]
      have harith : sz - (p.2.data.length : Int)
          - sumLens (evictOrderSpec rest (sz - (p.2.data.length : Int)) lim)
          = sz - ((p.2.data.length : Int)
            + sumLens (evictOrderSpec rest (sz - (p.2.data.length : Int)) lim)) := by
        ring
      rw [harith]

/-- Claim C2 (amended): when all stored entries carry pairwise-distinct
last-used stamps (with unique keys, as a Go map guarantees) and the pass
starts at or over the size limit — the only way compaction is triggered
— a compaction run removes exactly the spec's eviction sequence
`compactSpec`: entries sorted ascending by `lastUsed`, cut off as soon
as the size counter drops below the limit.  The pending set is
untouched, entries outside the removal sequence are untouched, the size
counter decreases by exactly the removed lengths, the pass ends below
the limit or with an empty storage, every strict prefix of the removal
sequence still leaves the counter at or above the limit ("stops as soon
as"), and whenever an entry with strictly newer `lastUsed` appears among
the first `n` removals, every strictly older entry does too (older
entries are evicted first). -/
theorem compact_removes_in_lastUsed_order (c : Cache)
    (hkeys : (c.storage.map (fun p => p.1)).Nodup)
    (hlus : (c.storage.map (fun p => p.2.lu)).Nodup)
    (hsz : c.sizeLimit ≤ c.size) :
    (compactRun c).2 = (compactSpec c).map (fun p => p.1) ∧
    (compactRun c).1.storage = removeKeys (compactSpec c) c.storage ∧
    (compactRun c).1.expired = c.expired ∧
    (compactRun c).1.sizeLimit = c.sizeLimit ∧
    (compactRun c).1.size = c.size - sumLens (compactSpec c) ∧
    (∀ k2, ¬ k2 ∈ (compactSpec c).map (fun p => p.1) →
      mapLookup k2 (compactRun c).1.storage = mapLookup k2 c.storage) ∧
    ((compactRun c).1.size < c.sizeLimit ∨ (compactRun c).1.storage = []) ∧
    (∀ pre suf, pre ++ suf = compactSpec c → ¬ suf = [] →
      c.sizeLimit ≤ c.size - sumLens pre) ∧
    (∀ x, x ∈ c.storage → ∀ y, y ∈ c.storage → x.2.lu < y.2.lu →
      ∀ n : Nat, y.1 ∈ ((compactRun c).2).take n → x.1 ∈ ((compactRun c).2).take n) := by
  have hperm : List.Perm (sortByLu c.storage) c.storage :=
    List.perm_insertionSort _ c.storage
  have h1 : ∀ p ∈ sortByLu c.storage, mapLookup p.1 c.storage = some p.2 :=
    fun p hp => mapLookup_of_mem_nodup hkeys (hperm.mem_iff.mp hp)
  have h2 : ((sortByLu c.storage).map (fun p => p.1)).Nodup :=
    ((hperm.map _).nodup_iff).mpr hkeys
  have h3 : ∀ p ∈ sortByLu c.storage, smapLookup p.2.lu (compactSnap c.storage).1 = p.1 := by
    intro p hp
    rw [compactSnap_fst]
    exact buildSmap_resolves c.storage [] hlus p (hperm.mem_iff.mp hp)
  have hsort : List.insertionSort (· ≤ ·) (compactSnap c.storage).2
      = (sortByLu c.storage).map (fun p => p.2.lu) := by
    rw [compactSnap_snd, map_lu_sortByLu]
  have hrun : compactRun c =
      ({ c with
          storage := removeKeys (compactSpec c) c.storage
          size := c.size - sumLens (compactSpec c) },
        (compactSpec c).map (fun p => p.1)) := by
    unfold compactRun
    dsimp only
    rw [hsort, compactLoop_bridge (compactSnap c.storage).1 c.sizeLimit (sortByLu c.storage)
      c.storage c.size h1 h2 h3]
    rfl
  refine ⟨by rw [hrun], by rw [hrun], by rw [hrun], by rw [hrun], by rw [hrun], ?_, ?_, ?_, ?_⟩
  · intro k2 hk2
    rw [hrun]
    exact removeKeys_lookup_not_mem (compactSpec c) c.storage k2 hk2
  · rcases evictOrderSpec_stop (sortByLu c.storage) c.size c.sizeLimit with h | h
    · left
      rw [hrun]
      exact h
    · right
      rw [hrun]
      show removeKeys (compactSpec c) c.storage = []
      apply removeKeys_all
      intro q hq
      rw [show compactSpec c = sortByLu c.storage from h]
      exact List.mem_map.mpr ⟨q, hperm.mem_iff.mpr hq, rfl⟩
  · intro pre suf heq hsuf
    exact evictOrderSpec_min (sortByLu c.storage) c.size c.sizeLimit hsz pre suf heq hsuf
  · intro x hx y hy hlt n hyn
    rw [hrun] at hyn ⊢
    exact evictOrder_take (sortByLu c.storage) c.size c.sizeLimit h2
      (sortByLu_pairwise_lt c.storage hlus) x (hperm.mem_iff.mpr hx) y (hperm.mem_iff.mpr hy)
      hlt n hyn

/-- Witness for C2 (amended) on `c2good` (pairwise-distinct stamps): the
pass removes exactly the two oldest entries `"B"` then `"C"` and
stops. -/
theorem compact_removes_in_lastUsed_order_witness :
    (compactRun c2good).2 = (compactSpec c2good).map (fun p => p.1) ∧
    (compactSpec c2good).map (fun p => p.1) = ["B", "C"] :=
  ⟨(compact_removes_in_lastUsed_order c2good (by decide) (by decide) (by decide)).1,
    by decide⟩

/-- Claim C2 counterexample: in `c2state` (at or over its limit), `"A"`
has a strictly older last-used stamp than `"C"`, yet the pass evicts
`"C"` while `"A"` survives untouched: the last-used collision between
`"A"` and `"B"` makes the snapshot map `s[lu.UnixNano()] = key` lose
`"A"`, so older entries are not always evicted before newer ones. -/
theorem compact_lu_collision_cex :
    c2state.sizeLimit ≤ c2state.size ∧
    mapLookup "A" c2state.storage = some { data := [0, 0, 0, 0], ttl := none, lu := 1 } ∧
    mapLookup "C" c2state.storage = some { data := [0, 0, 0, 0], ttl := none, lu := 2 } ∧
    "C" ∈ (compactRun c2state).2 ∧
    ¬ "A" ∈ (compactRun c2state).2 ∧
    mapLookup "A" (compactRun c2state).1.storage
      = some { data := [0, 0, 0, 0], ttl := none, lu := 1 } := by
  decide

end NegasusCache
